import Mathlib

set_option linter.unusedVariables false

/-!
Shallow embedding of the in-memory log storage
(`storage/memory/log_storage.go`) of a Merkle-log storage subsystem.

The Go code keeps, per tree, a copy-on-write key-value snapshot (a btree of
string keys) holding: the unsequenced FIFO queue (`/T/unseq`), sequenced
leaves keyed by index (`/T/seq/N`), a merkle-hash to sequence-number index
(`/T/h2s`), signed roots keyed by timestamp (`/T/sth/TS`) and revision
records (`/T/rev/TS`); plus a `currentSTH` field on the shared tree object.
We model the snapshot as a record of association lists and the operations of
`logTreeTX` / `memoryLogStorage` as pure functions on it.
-/

deriving instance DecidableEq for Except

/-- Byte strings (hashes, leaf payloads) are modelled as lists of naturals. -/
abbrev Bytes := List Nat

/-- trillian.LogLeaf, restricted to the fields the storage layer reads. -/
structure LogLeaf where
  leafIndex : Int
  leafIdentityHash : Bytes
  merkleLeafHash : Bytes
  leafValue : Bytes
  queueTimestamp : Nat
  deriving DecidableEq, Repr

/-- types.LogRootV1: the structured body carried (marshalled) inside a
SignedLogRoot.  We model the binary blob by the parsed structure itself, so
`UnmarshalBinary` is total. -/
structure LogRootV1 where
  treeSize : Nat
  rootHash : Bytes
  timestampNanos : Nat
  deriving DecidableEq, Repr

/-- trillian.SignedLogRoot: envelope around a marshalled LogRootV1. -/
structure SignedLogRoot where
  logRoot : LogRootV1
  deriving DecidableEq, Repr

/-- Status code attached to each QueuedLogLeaf result (grpc codes). -/
inductive StatusCode where
  | ok
  | alreadyExists
  deriving DecidableEq, Repr

/-- trillian.QueuedLogLeaf: a leaf plus its per-leaf queueing status. -/
structure QueuedLogLeaf where
  leaf : LogLeaf
  status : StatusCode
  deriving DecidableEq, Repr

/-- Errors returned by the storage operations (Go returns distinct error
values / grpc statuses; an enumeration keeps everything decidable). -/
inductive StorageErr where
  | treeNeedsInit
  | badLeafIdentityHashLength
  | badSequencedLeafHashSize
  | unknownLeaves
  | unimplemented
  deriving DecidableEq, Repr

/-- First-binding lookup in an association list (btree Get: nil if absent). -/
def alookup {α β : Type} [DecidableEq α] : List (α × β) → α → Option β
  | [], _ => none
  | p :: rest, k => if p.1 = k then some p.2 else alookup rest k

/-- btree ReplaceOrInsert: replace the first binding of the key, or append. -/
def areplace {α β : Type} [DecidableEq α] : List (α × β) → α → β → List (α × β)
  | [], k, v => [(k, v)]
  | p :: rest, k, v => if p.1 = k then (k, v) :: rest else p :: areplace rest k v

/-- Remove the first binding of a key (Go map delete, under distinct keys). -/
def aerase {α β : Type} [DecidableEq α] : List (α × β) → α → List (α × β)
  | [], _ => []
  | p :: rest, k => if p.1 = k then rest else p :: aerase rest k

/-- The key-value contents of one tree visible to a transaction: the
unsequenced queue, sequenced leaves by index, the merkle-hash → sequence
numbers index, signed roots and revision records by timestamp. -/
structure StoreState where
  unseq : List LogLeaf
  seqLeaves : List (Int × LogLeaf)
  hashToSeq : List (Bytes × List Int)
  sth : List (Nat × SignedLogRoot)
  rev : List (Nat × Int)
  deriving DecidableEq, Repr

/-- Tree type from the admin metadata (`trillian.TreeType`). -/
inductive TreeType where
  | log
  | preorderedLog
  deriving DecidableEq, Repr

/-- A tree as held by the storage (the Go `tree` object; named LogTree here
to avoid clashing with Mathlib): metadata type, committed key-value store,
and the `currentSTH` pointer that `fetchLatestRoot` reads (a plain field on
the shared tree object in the Go code). -/
structure LogTree where
  treeType : TreeType
  store : StoreState
  currentSTH : Nat
  deriving DecidableEq, Repr

/-- logTreeTX: the per-transaction view: the copy-on-write snapshot `tx`,
the signed root loaded at begin, its parsed body, the write revision and the
hasher size. -/
structure LogTreeTX where
  tx : StoreState
  slr : SignedLogRoot
  root : LogRootV1
  writeRevision : Int
  hashSizeBytes : Nat
  deriving DecidableEq, Repr

/-- rfc6962.DefaultHasher.Size(): the hash size installed at begin. -/
def defaultHashSize : Nat := 32

/-- logTreeTX.QueueLeaves: reject the whole batch if any leaf identity hash
has the wrong length, otherwise push every leaf onto the back of the queue
(no deduplication) and return one `none` per leaf (the "existing leaf"
slots, never filled by this storage). -/
def txQueueLeaves (n : Nat) (st : StoreState) (leaves : List LogLeaf) :
    Except StorageErr (StoreState × List (Option LogLeaf)) :=
  if leaves.all (fun l => l.leafIdentityHash.length = n) then
    Except.ok ({ st with unseq := st.unseq ++ leaves },
               leaves.map (fun _ => none))
  else
    Except.error StorageErr.badLeafIdentityHashLength

/-- logTreeTX.DequeueLeaves: walk the queue front taking at most `limit`
entries; the Go code has `TODO(al): consider cutoffTime` and never reads the
cutoff argument. -/
def DequeueLeaves (st : StoreState) (limit : Nat) (cutoffTime : Nat) :
    List LogLeaf :=
  st.unseq.take limit

/-- logTreeTX.GetLeavesByRange: for i in [0, count), look up index start+i
and append the leaf when present (the loop does not stop at a missing
index). -/
def GetLeavesByRange (st : StoreState) (start count : Int) : List LogLeaf :=
  (List.range count.toNat).filterMap
    (fun n : Nat => alookup st.seqLeaves (start + Int.ofNat n))

/-- The sequence numbers recorded for a merkle hash (empty when the hash is
not in the index). -/
def hashBucket (st : StoreState) (h : Bytes) : List Int :=
  (alookup st.hashToSeq h).getD []

/-- logTreeTX.GetLeavesByHash: for each input hash in order, look up its
bucket of sequence numbers and collect the leaves present at them; the
`orderBySequence` argument is never read. -/
def GetLeavesByHash (st : StoreState) (leafHashes : List Bytes)
    (orderBySequence : Bool) : List LogLeaf :=
  leafHashes.flatMap (fun h =>
    (hashBucket st h).filterMap (fun s => alookup st.seqLeaves s))

/-- logTreeTX.LatestSignedLogRoot: returns the root loaded at begin. -/
def LatestSignedLogRoot (t : LogTreeTX) : SignedLogRoot :=
  t.slr

/-- logTreeTX.fetchLatestRoot: read the signed root and revision record at
the tree's `currentSTH` timestamp; either one missing means the tree still
needs initialisation. -/
def fetchLatestRoot (st : StoreState) (currentSTH : Nat) :
    Option (SignedLogRoot × Int) :=
  match alookup st.sth currentSTH, alookup st.rev currentSTH with
  | some slr, some r => some (slr, r)
  | _, _ => none

/-- memoryLogStorage.beginInternal: snapshot the tree's store, load the
latest signed root (ErrTreeNeedsInit when absent), parse it, and set the
write revision to the loaded revision plus one. -/
def beginInternal (tree : LogTree) : Except StorageErr LogTreeTX :=
  match fetchLatestRoot tree.store tree.currentSTH with
  | none => Except.error StorageErr.treeNeedsInit
  | some (slr, r) =>
      Except.ok { tx := tree.store, slr := slr, root := slr.logRoot,
                  writeRevision := r + 1, hashSizeBytes := defaultHashSize }

/-- logTreeTX.StoreSignedLogRoot: stage the signed-root and revision records
in the transaction snapshot under the root's timestamp (ReplaceOrInsert:
an existing record at the same timestamp is silently overwritten), and —
directly on the shared tree object, outside the snapshot (the Go code marks
this `TODO: this breaks the transactional model`) — advance `currentSTH`
when the new timestamp is larger. -/
def storeSignedLogRoot (tree : LogTree) (t : LogTreeTX)
    (slr : SignedLogRoot) : LogTree × LogTreeTX :=
  let ts := slr.logRoot.timestampNanos
  let tx1 := { t.tx with sth := areplace t.tx.sth ts slr,
                         rev := areplace t.tx.rev ts t.writeRevision }
  let tree1 := if tree.currentSTH < ts then { tree with currentSTH := ts }
               else tree
  (tree1, { t with tx := tx1 })

/-- Modelled from the spec: `treeTX.Commit` lives in tree_storage.go, which
is not under src/; per the spec's commit step ("persist any pending queue,
sequenced-leaf, secondary-index, and signed-root writes") the copy-on-write
snapshot becomes the tree's committed store. -/
def commitTx (tree : LogTree) (t : LogTreeTX) : LogTree :=
  { tree with store := t.tx }

/-- Modelled from the spec: `treeTX.Close` without commit (tree_storage.go,
not under src/) — "discard staged state"; the snapshot is dropped and the
tree is left as is (including any in-place `currentSTH` mutation already
applied to it). -/
def closeNoCommit (tree : LogTree) (t : LogTreeTX) : LogTree :=
  tree

/-- The result-assembly loop body of memoryLogStorage.QueueLeaves: a filled
"existing" slot reports AlreadyExists with the existing leaf, an empty one
reports the submitted leaf with OK. -/
def queuedResult (e : Option LogLeaf) (l : LogLeaf) : QueuedLogLeaf :=
  match e with
  | some ex => { leaf := ex, status := StatusCode.alreadyExists }
  | none => { leaf := l, status := StatusCode.ok }

/-- memoryLogStorage.QueueLeaves: begin a transaction, queue the batch,
commit, then build one QueuedLogLeaf per input position. -/
def memQueueLeaves (tree : LogTree) (leaves : List LogLeaf) :
    Except StorageErr (LogTree × List QueuedLogLeaf) :=
  match beginInternal tree with
  | Except.error e => Except.error e
  | Except.ok t =>
      match txQueueLeaves t.hashSizeBytes t.tx leaves with
      | Except.error e => Except.error e
      | Except.ok (tx1, existing) =>
          let tree1 := commitTx tree { t with tx := tx1 }
          Except.ok (tree1, List.zipWith queuedResult existing leaves)

/-- memoryLogStorage.AddSequencedLeaves: unconditionally Unimplemented. -/
def memAddSequencedLeaves (tree : LogTree) (leaves : List LogLeaf)
    (timestamp : Nat) : Except StorageErr (List QueuedLogLeaf) :=
  Except.error StorageErr.unimplemented

/-- logTreeTX.AddSequencedLeaves: unconditionally Unimplemented. -/
def txAddSequencedLeaves (t : LogTreeTX) (leaves : List LogLeaf)
    (timestamp : Nat) : Except StorageErr (List QueuedLogLeaf) :=
  Except.error StorageErr.unimplemented

/-- Count lookup in `countByMerkleHash` (a Go map: absent key reads as 0). -/
def cmGet (cm : List (Bytes × Nat)) (h : Bytes) : Nat :=
  (alookup cm h).getD 0

/-- `countByMerkleHash[mh]++`. -/
def cmInc (cm : List (Bytes × Nat)) (h : Bytes) : List (Bytes × Nat) :=
  areplace cm h (cmGet cm h + 1)

/-- `countByMerkleHash[mh]--` followed by `delete` when the count reaches
zero. -/
def cmDec (cm : List (Bytes × Nat)) (h : Bytes) : List (Bytes × Nat) :=
  if cmGet cm h ≤ 1 then aerase cm h else areplace cm h (cmGet cm h - 1)

/-- The queue scan of UpdateSequencedLeaves: walk the queue front to back
while the count map is non-empty; an entry whose merkle hash still has a
positive count is removed (and the count decremented), other entries stay.
Returns the surviving queue and the leftover count map. -/
def removeMatching : List LogLeaf → List (Bytes × Nat) →
    List LogLeaf × List (Bytes × Nat)
  | q, [] => (q, [])
  | [], cm => ([], cm)
  | l :: rest, cm =>
      if 0 < cmGet cm l.merkleLeafHash then
        removeMatching rest (cmDec cm l.merkleLeafHash)
      else
        let r := removeMatching rest cm
        (l :: r.1, r.2)

/-- One iteration of the insert loop of UpdateSequencedLeaves: store the
leaf under its (client/sequencer supplied) index with ReplaceOrInsert, and
append the index to the merkle-hash bucket. -/
def updateSeqInsert (st : StoreState) (l : LogLeaf) : StoreState :=
  { st with
    seqLeaves := areplace st.seqLeaves l.leafIndex l,
    hashToSeq := areplace st.hashToSeq l.merkleLeafHash
      ((alookup st.hashToSeq l.merkleLeafHash).getD [] ++ [l.leafIndex]) }

/-- The insert loop of UpdateSequencedLeaves: per leaf, check the identity
hash length, bump `countByMerkleHash`, insert the sequenced leaf and extend
the hash index; the first wrong-sized leaf aborts. -/
def updateSeqPhase1 (n : Nat) :
    StoreState → List (Bytes × Nat) → List LogLeaf →
    Except StorageErr (StoreState × List (Bytes × Nat))
  | st, cm, [] => Except.ok (st, cm)
  | st, cm, l :: rest =>
      if l.leafIdentityHash.length = n then
        updateSeqPhase1 n (updateSeqInsert st l) (cmInc cm l.merkleLeafHash) rest
      else
        Except.error StorageErr.badSequencedLeafHashSize

/-- logTreeTX.UpdateSequencedLeaves: insert every leaf into the sequenced
store and hash index while counting merkle hashes, then remove one matching
queue entry per counted hash occurrence; any hash count the queue could not
satisfy leaves the count map non-empty, which is reported as the
"attempted to update unknown leaves" integrity error. -/
def UpdateSequencedLeaves (n : Nat) (st : StoreState) (leaves : List LogLeaf) :
    Except StorageErr StoreState :=
  match updateSeqPhase1 n st [] leaves with
  | Except.error e => Except.error e
  | Except.ok (st1, cm) =>
      let r := removeMatching st1.unseq cm
      if r.2 = [] then Except.ok { st1 with unseq := r.1 }
      else Except.error StorageErr.unknownLeaves

/-- Occurrences of a merkle hash in a list of leaves. -/
def countMH (q : List LogLeaf) (h : Bytes) : Nat :=
  q.countP (fun l => l.merkleLeafHash = h)

example : alookup [(1, 2), (3, 4)] 3 = some 4 := by decide
example : areplace [(1, 2), (3, 4)] 3 9 = [(1, 2), (3, 9)] := by decide
example : areplace ([] : List (Nat × Nat)) 3 9 = [(3, 9)] := by decide
example : aerase [(1, 2), (3, 4)] 1 = [(3, 4)] := by decide

/-! Concrete fixtures: a tree holding one sequenced leaf and one signed root
at timestamp 0, plus assorted leaves, used to instantiate the theorems. -/

/-- A 32-byte identity hash (all zeros). -/
def idHashA : Bytes := List.replicate defaultHashSize 0

/-- A second 32-byte identity hash (all ones). -/
def idHashB : Bytes := List.replicate defaultHashSize 1

/-- A merkle leaf hash (merkle hashes are never length-checked here). -/
def mhA : Bytes := [10]

/-- Another merkle leaf hash. -/
def mhB : Bytes := [11]

/-- The signed root committed at timestamp 0. -/
def slr0 : SignedLogRoot :=
  { logRoot := { treeSize := 1, rootHash := [5], timestampNanos := 0 } }

/-- The leaf sequenced at index 0. -/
def leafA : LogLeaf :=
  { leafIndex := 0, leafIdentityHash := idHashA, merkleLeafHash := mhA,
    leafValue := [1], queueTimestamp := 0 }

/-- A fresh submission carrying the same identity hash as `leafA`. -/
def leafB : LogLeaf :=
  { leafIndex := -1, leafIdentityHash := idHashA, merkleLeafHash := mhA,
    leafValue := [1], queueTimestamp := 5 }

/-- A leaf sequenced at index 2 (leaving a gap at index 1). -/
def leafC : LogLeaf :=
  { leafIndex := 2, leafIdentityHash := idHashB, merkleLeafHash := mhB,
    leafValue := [3], queueTimestamp := 1 }

/-- A queued leaf with merkle hash `mhB` and a valid identity hash. -/
def queuedB : LogLeaf :=
  { leafIndex := -1, leafIdentityHash := idHashB, merkleLeafHash := mhB,
    leafValue := [4], queueTimestamp := 2 }

/-- `queuedB` as the sequencer hands it to UpdateSequencedLeaves, stamped
with leaf index 1. -/
def seqB : LogLeaf :=
  { leafIndex := 1, leafIdentityHash := idHashB, merkleLeafHash := mhB,
    leafValue := [4], queueTimestamp := 2 }

/-- A leaf whose identity hash has the wrong length (1 instead of 32) but
whose merkle hash matches `queuedB`. -/
def shortLeaf : LogLeaf :=
  { leafIndex := 1, leafIdentityHash := [0], merkleLeafHash := mhB,
    leafValue := [4], queueTimestamp := 2 }

/-- A queued leaf whose queue timestamp (100) lies beyond typical cutoffs. -/
def lateLeaf : LogLeaf :=
  { leafIndex := -1, leafIdentityHash := idHashB, merkleLeafHash := mhB,
    leafValue := [2], queueTimestamp := 100 }

/-- Store contents: `leafA` sequenced at index 0, indexed under `mhA`, one
signed root and revision record at timestamp 0, empty queue. -/
def baseStore : StoreState :=
  { unseq := [], seqLeaves := [(0, leafA)], hashToSeq := [(mhA, [0])],
    sth := [(0, slr0)], rev := [(0, 0)] }

/-- An initialised LOG tree over `baseStore` with `currentSTH = 0`. -/
def baseTree : LogTree :=
  { treeType := TreeType.log, store := baseStore, currentSTH := 0 }

/-- The transaction `beginInternal` produces on `baseTree`. -/
def baseTx : LogTreeTX :=
  { tx := baseStore, slr := slr0, root := slr0.logRoot,
    writeRevision := 1, hashSizeBytes := defaultHashSize }

/-- A later signed root, timestamp 200. -/
def slr200 : SignedLogRoot :=
  { logRoot := { treeSize := 2, rootHash := [6], timestampNanos := 200 } }

/-- Two distinct signed roots sharing timestamp 5. -/
def slrA5 : SignedLogRoot :=
  { logRoot := { treeSize := 3, rootHash := [7], timestampNanos := 5 } }

/-- Second root at timestamp 5, different body. -/
def slrB5 : SignedLogRoot :=
  { logRoot := { treeSize := 4, rootHash := [8], timestampNanos := 5 } }

/-- `baseStore` whose sequenced leaves have a gap at index 1. -/
def gapStore : StoreState :=
  { baseStore with seqLeaves := [(0, leafA), (2, leafC)],
                   hashToSeq := [(mhA, [0]), (mhB, [2])] }

/-- `baseStore` with `queuedB` waiting in the queue. -/
def c3store : StoreState :=
  { baseStore with unseq := [queuedB] }

/-- `baseStore` with only the late leaf queued. -/
def lateQueueStore : StoreState :=
  { baseStore with unseq := [lateLeaf] }

/-- A PREORDERED_LOG tree over `baseStore`. -/
def preTree : LogTree :=
  { treeType := TreeType.preorderedLog, store := baseStore, currentSTH := 0 }

example : beginInternal baseTree = Except.ok baseTx := by decide

/-- C2: the claim says `StoreSignedLogRoot`'s effect on the tree's
current-STH pointer is staged until commit, so a rolled-back transaction
leaves `currentSTH` unchanged.  Evaluating the code: on `baseTree`
(`currentSTH = 0`), a transaction that stores a root with timestamp 200 and
then closes without commit leaves the tree with `currentSTH = 200` — the
mutation bypasses the snapshot, exactly as the source's own
`TODO: this breaks the transactional model` admits. -/
theorem claim2_rollback_advances_currentSTH :
    baseTree.currentSTH = 0 ∧
    beginInternal baseTree = Except.ok baseTx ∧
    (closeNoCommit (storeSignedLogRoot baseTree baseTx slr200).1
        (storeSignedLogRoot baseTree baseTx slr200).2).currentSTH = 200 := by
  decide

/-- C4: the claim says entries with queue timestamp greater than the cutoff
are not returned by DequeueLeaves.  Evaluating the code: with only a leaf of
queue timestamp 100 queued, `DequeueLeaves` with limit 1 and cutoff 50
returns that leaf — the cutoff argument is never read (the source carries
`TODO(al): consider cutoffTime`). -/
theorem claim4_cutoff_ignored :
    lateQueueStore.unseq = [lateLeaf] ∧
    50 < lateLeaf.queueTimestamp ∧
    DequeueLeaves lateQueueStore 1 50 = [lateLeaf] := by
  decide

/-- C9 counterexample: on a PREORDERED_LOG tree, AddSequencedLeaves still
returns Unimplemented, contradicting the claim that such a tree accepts the
leaves. -/
theorem claim9_counterexample :
    preTree.treeType = TreeType.preorderedLog ∧
    memAddSequencedLeaves preTree [leafB] 7 =
      Except.error StorageErr.unimplemented := by
  decide

/-- C9 (amended): AddSequencedLeaves returns Unimplemented for every tree,
whatever its type, at both the storage and the transaction level. -/
theorem claim9_addSequencedLeaves_unimplemented (tree : LogTree)
    (t : LogTreeTX) (leaves : List LogLeaf) (ts : Nat) :
    memAddSequencedLeaves tree leaves ts =
      Except.error StorageErr.unimplemented ∧
    txAddSequencedLeaves t leaves ts =
      Except.error StorageErr.unimplemented :=
  ⟨rfl, rfl⟩

/-- C9 witness: the amended theorem applied to the preordered tree. -/
theorem claim9_witness :
    memAddSequencedLeaves preTree [leafB] 3 =
      Except.error StorageErr.unimplemented ∧
    txAddSequencedLeaves baseTx [leafB] 3 =
      Except.error StorageErr.unimplemented :=
  claim9_addSequencedLeaves_unimplemented preTree baseTx [leafB] 3

/-- C1 counterexample: `leafB` carries the identity hash of the already
sequenced `leafA`, yet QueueLeaves reports it with OK (not AlreadyExists
with the existing leaf) and appends it to the queue. -/
theorem claim1_counterexample :
    alookup baseTree.store.seqLeaves 0 = some leafA ∧
    leafB.leafIdentityHash = leafA.leafIdentityHash ∧
    memQueueLeaves baseTree [leafB] =
      Except.ok
        ({ baseTree with store := { baseStore with unseq := [leafB] } },
         [{ leaf := leafB, status := StatusCode.ok }]) ∧
    StatusCode.ok ≠ StatusCode.alreadyExists := by
  decide

/-- C5 counterexample: with leaves at indices 0 and 2 and a gap at 1,
GetLeavesByRange(0, 3) returns the leaf at index 2 — beyond the first gap —
and GetLeavesByRange(1, 2), starting at the first missing index, is not
empty. -/
theorem claim5_counterexample :
    alookup gapStore.seqLeaves 1 = none ∧
    alookup gapStore.seqLeaves 2 = some leafC ∧
    GetLeavesByRange gapStore 0 3 = [leafA, leafC] ∧
    GetLeavesByRange gapStore 1 2 = [leafC] := by
  decide

/-- C6 counterexample: querying the hashes in the order [mhB, mhA] with
orderBySequence = true returns the leaves in input-hash order
(indices [2, 0]), not sorted by leaf index. -/
theorem claim6_counterexample :
    GetLeavesByHash gapStore [mhB, mhA] true = [leafC, leafA] ∧
    leafA.leafIndex < leafC.leafIndex ∧
    ¬ ((GetLeavesByHash gapStore [mhB, mhA] true).map
        LogLeaf.leafIndex).Pairwise (fun a b => a ≤ b) := by
  decide

/-- C7 counterexample: storing two distinct roots with the same timestamp 5
raises no error; the second silently overwrites the first in the staged
signed-root records. -/
theorem claim7_counterexample :
    slrA5.logRoot.timestampNanos = slrB5.logRoot.timestampNanos ∧
    slrA5 ≠ slrB5 ∧
    alookup (storeSignedLogRoot
        (storeSignedLogRoot baseTree baseTx slrA5).1
        (storeSignedLogRoot baseTree baseTx slrA5).2 slrB5).2.tx.sth 5 =
      some slrB5 := by
  decide

/-! Association-list lemmas shared by the remaining proofs. -/

theorem alookup_areplace_self {α β : Type} [DecidableEq α]
    (m : List (α × β)) (k : α) (v : β) :
    alookup (areplace m k v) k = some v := by
  induction m with
  | nil => simp [areplace, alookup]
  | cons p rest ih =>
      by_cases hp : p.1 = k
      · simp [areplace, hp, alookup]
      · simp [areplace, hp, alookup, ih]

theorem alookup_areplace_ne {α β : Type} [DecidableEq α]
    (m : List (α × β)) (k : α) (v : β) (k' : α) (h : k' ≠ k) :
    alookup (areplace m k v) k' = alookup m k' := by
  have hkk : ¬ k = k' := fun hc => h hc.symm
  induction m with
  | nil => simp [areplace, alookup, hkk]
  | cons p rest ih =>
      by_cases hp : p.1 = k
      · have hne : ¬ p.1 = k' := by rw [hp]; exact hkk
        simp [areplace, hp, alookup, hkk, hne]
      · by_cases hp' : p.1 = k'
        · rw [show areplace (p :: rest) k v = p :: areplace rest k v from by
            simp [areplace, hp]]
          simp [alookup, hp']
        · simp [areplace, hp, alookup, hp', ih]

theorem mem_areplace {α β : Type} [DecidableEq α]
    (m : List (α × β)) (k : α) (v : β) (q : α × β)
    (hq : q ∈ areplace m k v) : q = (k, v) ∨ q ∈ m := by
  induction m with
  | nil =>
      simp [areplace] at hq
      exact Or.inl hq
  | cons p rest ih =>
      by_cases hp : p.1 = k
      · simp [areplace, hp] at hq
        rcases hq with hq | hq
        · exact Or.inl hq
        · exact Or.inr (List.mem_cons_of_mem _ hq)
      · simp [areplace, hp] at hq
        rcases hq with hq | hq
        · subst hq; exact Or.inr (List.mem_cons_self _ _)
        · rcases ih hq with h1 | h1
          · exact Or.inl h1
          · exact Or.inr (List.mem_cons_of_mem _ h1)

theorem mem_aerase {α β : Type} [DecidableEq α]
    (m : List (α × β)) (k : α) (q : α × β)
    (hq : q ∈ aerase m k) : q ∈ m := by
  induction m with
  | nil => simp [aerase] at hq
  | cons p rest ih =>
      by_cases hp : p.1 = k
      · simp [aerase, hp] at hq
        exact List.mem_cons_of_mem _ hq
      · simp [aerase, hp] at hq
        rcases hq with hq | hq
        · subst hq; exact List.mem_cons_self _ _
        · exact List.mem_cons_of_mem _ (ih hq)

/-- C7 (amended): StoreSignedLogRoot stages the signed root under its
timestamp and the write revision alongside, with upsert semantics: an
existing record at the same timestamp is replaced without any error, and
records at other timestamps are untouched. -/
theorem claim7_storeSignedLogRoot_upsert (tree : LogTree) (t : LogTreeTX)
    (slr : SignedLogRoot) :
    alookup (storeSignedLogRoot tree t slr).2.tx.sth
        slr.logRoot.timestampNanos = some slr ∧
    alookup (storeSignedLogRoot tree t slr).2.tx.rev
        slr.logRoot.timestampNanos = some t.writeRevision ∧
    ∀ ts, ts ≠ slr.logRoot.timestampNanos →
      alookup (storeSignedLogRoot tree t slr).2.tx.sth ts =
        alookup t.tx.sth ts ∧
      alookup (storeSignedLogRoot tree t slr).2.tx.rev ts =
        alookup t.tx.rev ts := by
  refine ⟨?_, ?_, ?_⟩
  · exact alookup_areplace_self _ _ _
  · exact alookup_areplace_self _ _ _
  · intro ts hts
    exact ⟨alookup_areplace_ne _ _ _ _ hts, alookup_areplace_ne _ _ _ _ hts⟩

/-- C7 witness: the upsert theorem applied to `slrA5` on the base
transaction. -/
theorem claim7_witness :
    alookup (storeSignedLogRoot baseTree baseTx slrA5).2.tx.sth
        slrA5.logRoot.timestampNanos = some slrA5 :=
  (claim7_storeSignedLogRoot_upsert baseTree baseTx slrA5).1

/-- C10: LatestSignedLogRoot returns the root loaded at begin (the record
at the tree's `currentSTH` when the transaction started), and a
StoreSignedLogRoot inside the same transaction leaves that value
untouched. -/
theorem claim10_latestRoot_stable (tree : LogTree) (t : LogTreeTX)
    (slr : SignedLogRoot)
    (hb : beginInternal tree = Except.ok t) :
    some (LatestSignedLogRoot t) = alookup tree.store.sth tree.currentSTH ∧
    LatestSignedLogRoot (storeSignedLogRoot tree t slr).2 =
      LatestSignedLogRoot t := by
  constructor
  · unfold beginInternal at hb
    unfold fetchLatestRoot at hb
    cases hsth : alookup tree.store.sth tree.currentSTH with
    | none => rw [hsth] at hb; exact absurd hb (by simp)
    | some s =>
        cases hrev : alookup tree.store.rev tree.currentSTH with
        | none => rw [hsth, hrev] at hb; exact absurd hb (by simp)
        | some r =>
            rw [hsth, hrev] at hb
            simp only [Except.ok.injEq] at hb
            rw [← hb]
            rfl
  · rfl

/-- C10 witness: the stability theorem applied to the base tree and its
begin transaction. -/
theorem claim10_witness :
    some (LatestSignedLogRoot baseTx) =
      alookup baseTree.store.sth baseTree.currentSTH ∧
    LatestSignedLogRoot (storeSignedLogRoot baseTree baseTx slr200).2 =
      LatestSignedLogRoot baseTx :=
  claim10_latestRoot_stable baseTree baseTx slr200 (by decide)

/-- Shape of the transaction produced by a successful begin. -/
theorem beginInternal_ok (tree : LogTree) (t : LogTreeTX)
    (hb : beginInternal tree = Except.ok t) :
    t.tx = tree.store ∧ t.hashSizeBytes = defaultHashSize := by
  unfold beginInternal at hb
  cases hf : fetchLatestRoot tree.store tree.currentSTH with
  | none => rw [hf] at hb; exact absurd hb (by simp)
  | some p =>
      rw [hf] at hb
      simp only [Except.ok.injEq] at hb
      rw [← hb]
      exact ⟨rfl, rfl⟩

/-- The per-position result assembly of memoryLogStorage.QueueLeaves, on the
all-`none` "existing" slice this storage always produces. -/
theorem zipWith_none_ok (leaves : List LogLeaf) :
    List.zipWith queuedResult
      (leaves.map (fun _ => (none : Option LogLeaf))) leaves =
    leaves.map (fun l =>
      ({ leaf := l, status := StatusCode.ok } : QueuedLogLeaf)) := by
  induction leaves with
  | nil => rfl
  | cons l rest ih =>
      simp only [List.map_cons, List.zipWith_cons_cons, ih]
      rfl

/-- C1 (amended): QueueLeaves performs no deduplication: a batch whose
leaves all carry identity hashes of the hasher's length is appended to the
queue wholesale — even when an identical identity hash is already present in
the store — and every position of the result reports the submitted leaf with
OK; AlreadyExists is never produced. -/
theorem claim1_queueLeaves_no_dedup (tree : LogTree) (t : LogTreeTX)
    (leaves : List LogLeaf)
    (hb : beginInternal tree = Except.ok t)
    (hv : ∀ l ∈ leaves, l.leafIdentityHash.length = defaultHashSize) :
    memQueueLeaves tree leaves =
      Except.ok
        ({ tree with store :=
            { tree.store with unseq := tree.store.unseq ++ leaves } },
         leaves.map (fun l => { leaf := l, status := StatusCode.ok })) := by
  obtain ⟨htx, hsz⟩ := beginInternal_ok tree t hb
  have hall : leaves.all
      (fun l => l.leafIdentityHash.length = defaultHashSize) = true := by
    rw [List.all_eq_true]
    intro l hl
    exact decide_eq_true (hv l hl)
  unfold memQueueLeaves
  rw [hb]
  simp only [txQueueLeaves, hsz, htx, hall, if_true]
  simp only [commitTx, zipWith_none_ok]

/-- C1 witness: queueing `leafB` — whose identity hash is already that of
the sequenced `leafA` — on the base tree appends it and reports OK. -/
theorem claim1_witness :
    memQueueLeaves baseTree [leafB] =
      Except.ok
        ({ baseTree with store :=
            { baseTree.store with unseq := baseTree.store.unseq ++ [leafB] } },
         [leafB].map (fun l => { leaf := l, status := StatusCode.ok })) :=
  claim1_queueLeaves_no_dedup baseTree baseTx [leafB] (by decide)
    (by decide)

/-- C8 (confirmed): a batch containing any leaf whose identity hash length
differs from the hasher's size `defaultHashSize` is rejected atomically: the
transaction-level QueueLeaves returns the validation error before touching
the queue (no success state exists), and the storage-level QueueLeaves
propagates the error without committing, so no leaf of the batch is
inserted. -/
theorem claim8_queueLeaves_atomic_reject (st : StoreState) (tree : LogTree)
    (t : LogTreeTX) (leaves : List LogLeaf)
    (hb : beginInternal tree = Except.ok t)
    (hbad : ∃ l ∈ leaves, l.leafIdentityHash.length ≠ defaultHashSize) :
    txQueueLeaves defaultHashSize st leaves =
      Except.error StorageErr.badLeafIdentityHashLength ∧
    memQueueLeaves tree leaves =
      Except.error StorageErr.badLeafIdentityHashLength := by
  obtain ⟨htx, hsz⟩ := beginInternal_ok tree t hb
  have hall : ∀ s : StoreState,
      txQueueLeaves defaultHashSize s leaves =
        Except.error StorageErr.badLeafIdentityHashLength := by
    intro s
    unfold txQueueLeaves
    rw [if_neg]
    intro hc
    obtain ⟨l, hl, hne⟩ := hbad
    rw [List.all_eq_true] at hc
    exact hne (of_decide_eq_true (hc l hl))
  refine ⟨hall st, ?_⟩
  unfold memQueueLeaves
  simp only [hb, hsz, hall t.tx]

/-- C8 witness: a batch holding `shortLeaf` (identity hash length 1) is
rejected by both levels on the base tree. -/
theorem claim8_witness :
    txQueueLeaves defaultHashSize baseStore [leafB, shortLeaf] =
      Except.error StorageErr.badLeafIdentityHashLength ∧
    memQueueLeaves baseTree [leafB, shortLeaf] =
      Except.error StorageErr.badLeafIdentityHashLength :=
  claim8_queueLeaves_atomic_reject baseStore baseTree baseTx
    [leafB, shortLeaf] (by decide) (by decide)

/-! Lemmas about the count map of UpdateSequencedLeaves.  A Go map has
distinct keys; `countByMerkleHash` moreover only ever holds positive counts
(it deletes a key the moment its count reaches zero). -/

theorem alookup_eq_none {α β : Type} [DecidableEq α]
    (m : List (α × β)) (k : α) (h : ∀ q ∈ m, q.1 ≠ k) :
    alookup m k = none := by
  induction m with
  | nil => rfl
  | cons p rest ih =>
      have hp : ¬ p.1 = k := h p (List.mem_cons_self p rest)
      simp only [alookup, if_neg hp]
      exact ih (fun q hq => h q (List.mem_cons_of_mem _ hq))

theorem alookup_aerase_ne {α β : Type} [DecidableEq α]
    (m : List (α × β)) (k k' : α) (h : k' ≠ k) :
    alookup (aerase m k) k' = alookup m k' := by
  induction m with
  | nil => rfl
  | cons p rest ih =>
      by_cases hp : p.1 = k
      · rw [show aerase (p :: rest) k = rest from by simp [aerase, hp]]
        have hne : ¬ p.1 = k' := by rw [hp]; exact fun hc => h hc.symm
        simp [alookup, hne]
      · rw [show aerase (p :: rest) k = p :: aerase rest k from by
          simp [aerase, hp]]
        by_cases hp' : p.1 = k'
        · simp [alookup, hp']
        · simp [alookup, hp', ih]

theorem alookup_aerase_self {α β : Type} [DecidableEq α]
    (m : List (α × β)) (k : α)
    (hnd : m.Pairwise (fun p q => p.1 ≠ q.1)) :
    alookup (aerase m k) k = none := by
  induction m with
  | nil => rfl
  | cons p rest ih =>
      rw [List.pairwise_cons] at hnd
      by_cases hp : p.1 = k
      · rw [show aerase (p :: rest) k = rest from by simp [aerase, hp]]
        exact alookup_eq_none rest k
          (fun q hq => fun hc => hnd.1 q hq (hp.trans hc.symm))
      · rw [show aerase (p :: rest) k = p :: aerase rest k from by
          simp [aerase, hp]]
        simp only [alookup, if_neg hp]
        exact ih hnd.2

theorem nodupKeys_areplace {α β : Type} [DecidableEq α]
    (m : List (α × β)) (k : α) (v : β)
    (hnd : m.Pairwise (fun p q => p.1 ≠ q.1)) :
    (areplace m k v).Pairwise (fun p q => p.1 ≠ q.1) := by
  induction m with
  | nil => simp [areplace]
  | cons p rest ih =>
      rw [List.pairwise_cons] at hnd
      by_cases hp : p.1 = k
      · rw [show areplace (p :: rest) k v = (k, v) :: rest from by
          simp [areplace, hp]]
        rw [List.pairwise_cons]
        exact ⟨fun q hq => hp ▸ hnd.1 q hq, hnd.2⟩
      · rw [show areplace (p :: rest) k v = p :: areplace rest k v from by
          simp [areplace, hp]]
        rw [List.pairwise_cons]
        refine ⟨?_, ih hnd.2⟩
        intro q hq
        rcases mem_areplace rest k v q hq with h3 | h3
        · rw [h3]; exact hp
        · exact hnd.1 q h3

theorem nodupKeys_aerase {α β : Type} [DecidableEq α]
    (m : List (α × β)) (k : α)
    (hnd : m.Pairwise (fun p q => p.1 ≠ q.1)) :
    (aerase m k).Pairwise (fun p q => p.1 ≠ q.1) := by
  induction m with
  | nil => simp [aerase]
  | cons p rest ih =>
      rw [List.pairwise_cons] at hnd
      by_cases hp : p.1 = k
      · rw [show aerase (p :: rest) k = rest from by simp [aerase, hp]]
        exact hnd.2
      · rw [show aerase (p :: rest) k = p :: aerase rest k from by
          simp [aerase, hp]]
        rw [List.pairwise_cons]
        exact ⟨fun q hq => hnd.1 q (mem_aerase rest k q hq), ih hnd.2⟩

/-- Well-formedness of `countByMerkleHash`: distinct keys, positive counts. -/
def cmWF (cm : List (Bytes × Nat)) : Prop :=
  cm.Pairwise (fun p q => p.1 ≠ q.1) ∧ ∀ p ∈ cm, 0 < p.2

theorem cmWF_nil : cmWF [] :=
  ⟨List.Pairwise.nil, fun p hp => absurd hp (List.not_mem_nil p)⟩

theorem cmGet_nil (h : Bytes) : cmGet [] h = 0 := rfl

theorem cmGet_cmInc_self (cm : List (Bytes × Nat)) (h : Bytes) :
    cmGet (cmInc cm h) h = cmGet cm h + 1 := by
  unfold cmInc cmGet
  rw [alookup_areplace_self]
  rfl

theorem cmGet_cmInc_ne (cm : List (Bytes × Nat)) (h h' : Bytes)
    (hne : h' ≠ h) : cmGet (cmInc cm h) h' = cmGet cm h' := by
  unfold cmInc cmGet
  rw [alookup_areplace_ne _ _ _ _ hne]

theorem cmWF_cmInc (cm : List (Bytes × Nat)) (h : Bytes) (hwf : cmWF cm) :
    cmWF (cmInc cm h) := by
  refine ⟨nodupKeys_areplace _ _ _ hwf.1, ?_⟩
  intro p hp
  rcases mem_areplace _ _ _ p hp with h1 | h1
  · rw [h1]; exact Nat.succ_pos _
  · exact hwf.2 p h1

theorem cmGet_cmDec_self (cm : List (Bytes × Nat)) (h : Bytes)
    (hnd : cm.Pairwise (fun p q => p.1 ≠ q.1)) :
    cmGet (cmDec cm h) h = cmGet cm h - 1 := by
  unfold cmDec
  by_cases hle : cmGet cm h ≤ 1
  · rw [if_pos hle]
    unfold cmGet at hle ⊢
    rw [alookup_aerase_self _ _ hnd]
    simp only [Option.getD_none]
    omega
  · rw [if_neg hle]
    unfold cmGet
    rw [alookup_areplace_self]
    rfl

theorem cmGet_cmDec_ne (cm : List (Bytes × Nat)) (h h' : Bytes)
    (hne : h' ≠ h) : cmGet (cmDec cm h) h' = cmGet cm h' := by
  unfold cmDec
  by_cases hle : cmGet cm h ≤ 1
  · rw [if_pos hle]
    unfold cmGet
    rw [alookup_aerase_ne _ _ _ hne]
  · rw [if_neg hle]
    unfold cmGet
    rw [alookup_areplace_ne _ _ _ _ hne]

theorem cmWF_cmDec (cm : List (Bytes × Nat)) (h : Bytes) (hwf : cmWF cm) :
    cmWF (cmDec cm h) := by
  unfold cmDec
  by_cases hle : cmGet cm h ≤ 1
  · rw [if_pos hle]
    exact ⟨nodupKeys_aerase _ _ hwf.1,
      fun p hp => hwf.2 p (mem_aerase _ _ p hp)⟩
  · rw [if_neg hle]
    refine ⟨nodupKeys_areplace _ _ _ hwf.1, ?_⟩
    intro p hp
    rcases mem_areplace _ _ _ p hp with h1 | h1
    · rw [h1]; omega
    · exact hwf.2 p h1

theorem countMH_nil (h : Bytes) : countMH [] h = 0 := rfl

theorem countMH_cons (l : LogLeaf) (q : List LogLeaf) (h : Bytes) :
    countMH (l :: q) h =
      countMH q h + (if l.merkleLeafHash = h then 1 else 0) := by
  by_cases hc : l.merkleLeafHash = h <;>
    simp [countMH, List.countP_cons, hc]

/-- Leftover counts after the queue scan: for every hash, the demand that
the queue could not satisfy (truncated subtraction). -/
theorem removeMatching_get (q : List LogLeaf) : ∀ cm, cmWF cm → ∀ h,
    cmGet (removeMatching q cm).2 h = cmGet cm h - countMH q h := by
  induction q with
  | nil =>
      intro cm hwf h
      cases cm with
      | nil => simp [removeMatching, countMH_nil]
      | cons p rest => simp [removeMatching, countMH_nil]
  | cons l qrest ih =>
      intro cm hwf h
      cases cm with
      | nil =>
          simp only [removeMatching, cmGet_nil, countMH_cons]
          omega
      | cons p rest =>
          by_cases hpos : 0 < cmGet (p :: rest) l.merkleLeafHash
          · rw [show removeMatching (l :: qrest) (p :: rest) =
                removeMatching qrest (cmDec (p :: rest) l.merkleLeafHash)
              from by simp [removeMatching, hpos]]
            rw [ih _ (cmWF_cmDec _ _ hwf) h]
            by_cases hh : l.merkleLeafHash = h
            · subst hh
              rw [cmGet_cmDec_self _ _ hwf.1, countMH_cons]
              simp
              omega
            · rw [cmGet_cmDec_ne _ _ _ (fun hc => hh hc.symm), countMH_cons]
              simp only [if_neg hh]
              omega
          · rw [show removeMatching (l :: qrest) (p :: rest) =
                ((l :: (removeMatching qrest (p :: rest)).1),
                 (removeMatching qrest (p :: rest)).2)
              from by simp [removeMatching, hpos]]
            simp only []
            rw [ih _ hwf h]
            by_cases hh : l.merkleLeafHash = h
            · subst hh
              have h0 : cmGet (p :: rest) l.merkleLeafHash = 0 := by omega
              rw [countMH_cons]
              simp only [if_pos rfl]
              omega
            · rw [countMH_cons]
              simp only [if_neg hh]
              omega

/-- Queue counts after the scan: for every hash, the surviving occurrences
are the original ones minus the demanded count (truncated). -/
theorem removeMatching_countMH (q : List LogLeaf) : ∀ cm, cmWF cm → ∀ h,
    countMH (removeMatching q cm).1 h = countMH q h - cmGet cm h := by
  induction q with
  | nil =>
      intro cm hwf h
      cases cm with
      | nil => simp [removeMatching, countMH_nil]
      | cons p rest => simp [removeMatching, countMH_nil]
  | cons l qrest ih =>
      intro cm hwf h
      cases cm with
      | nil =>
          simp only [removeMatching, cmGet_nil]
          omega
      | cons p rest =>
          by_cases hpos : 0 < cmGet (p :: rest) l.merkleLeafHash
          · rw [show removeMatching (l :: qrest) (p :: rest) =
                removeMatching qrest (cmDec (p :: rest) l.merkleLeafHash)
              from by simp [removeMatching, hpos]]
            rw [ih _ (cmWF_cmDec _ _ hwf) h]
            by_cases hh : l.merkleLeafHash = h
            · subst hh
              rw [cmGet_cmDec_self _ _ hwf.1, countMH_cons]
              simp
              omega
            · rw [cmGet_cmDec_ne _ _ _ (fun hc => hh hc.symm), countMH_cons]
              simp only [if_neg hh]
              omega
          · rw [show removeMatching (l :: qrest) (p :: rest) =
                ((l :: (removeMatching qrest (p :: rest)).1),
                 (removeMatching qrest (p :: rest)).2)
              from by simp [removeMatching, hpos]]
            simp only []
            rw [countMH_cons, countMH_cons, ih _ hwf h]
            by_cases hh : l.merkleLeafHash = h
            · subst hh
              have h0 : cmGet (p :: rest) l.merkleLeafHash = 0 := by omega
              simp only [if_pos rfl]
              omega
            · simp only [if_neg hh]
              omega

/-- The queue scan only removes entries: the survivors are a sublist. -/
theorem removeMatching_sublist (q : List LogLeaf) : ∀ cm,
    (removeMatching q cm).1.Sublist q := by
  induction q with
  | nil =>
      intro cm
      cases cm with
      | nil => simp [removeMatching]
      | cons p rest => simp [removeMatching]
  | cons l qrest ih =>
      intro cm
      cases cm with
      | nil => simp [removeMatching]
      | cons p rest =>
          by_cases hpos : 0 < cmGet (p :: rest) l.merkleLeafHash
          · rw [show removeMatching (l :: qrest) (p :: rest) =
                removeMatching qrest (cmDec (p :: rest) l.merkleLeafHash)
              from by simp [removeMatching, hpos]]
            exact (ih _).cons l
          · rw [show removeMatching (l :: qrest) (p :: rest) =
                ((l :: (removeMatching qrest (p :: rest)).1),
                 (removeMatching qrest (p :: rest)).2)
              from by simp [removeMatching, hpos]]
            exact (ih _).cons₂ l

/-- The queue scan preserves count-map well-formedness. -/
theorem removeMatching_wf (q : List LogLeaf) : ∀ cm, cmWF cm →
    cmWF (removeMatching q cm).2 := by
  induction q with
  | nil =>
      intro cm hwf
      cases cm with
      | nil => exact cmWF_nil
      | cons p rest => exact hwf
  | cons l qrest ih =>
      intro cm hwf
      cases cm with
      | nil => exact cmWF_nil
      | cons p rest =>
          by_cases hpos : 0 < cmGet (p :: rest) l.merkleLeafHash
          · rw [show removeMatching (l :: qrest) (p :: rest) =
                removeMatching qrest (cmDec (p :: rest) l.merkleLeafHash)
              from by simp [removeMatching, hpos]]
            exact ih _ (cmWF_cmDec _ _ hwf)
          · rw [show removeMatching (l :: qrest) (p :: rest) =
                ((l :: (removeMatching qrest (p :: rest)).1),
                 (removeMatching qrest (p :: rest)).2)
              from by simp [removeMatching, hpos]]
            exact ih _ hwf

/-- A well-formed count map is empty exactly when every count reads zero. -/
theorem cm_eq_nil_iff (cm : List (Bytes × Nat)) (hwf : cmWF cm) :
    cm = [] ↔ ∀ h, cmGet cm h = 0 := by
  constructor
  · rintro rfl h
    rfl
  · intro hall
    cases cm with
    | nil => rfl
    | cons p rest =>
        have h1 := hall p.1
        have hps : cmGet (p :: rest) p.1 = p.2 := by simp [cmGet, alookup]
        have hpos := hwf.2 p (List.mem_cons_self p rest)
        omega

/-- The insert loop on a batch of correctly-sized leaves: it succeeds,
leaves the queue untouched (it only writes the sequenced store and the hash
index), adds each leaf's merkle hash to the count map, and preserves
well-formedness. -/
theorem updateSeqPhase1_ok (n : Nat) (leaves : List LogLeaf) :
    ∀ st cm, (∀ l ∈ leaves, l.leafIdentityHash.length = n) →
    ∃ st1 cm1, updateSeqPhase1 n st cm leaves = Except.ok (st1, cm1) ∧
      st1.unseq = st.unseq ∧
      (∀ h, cmGet cm1 h = cmGet cm h + countMH leaves h) ∧
      (cmWF cm → cmWF cm1) := by
  induction leaves with
  | nil =>
      intro st cm hsz
      exact ⟨st, cm, rfl, rfl, fun h => by simp [countMH_nil], fun x => x⟩
  | cons l rest ih =>
      intro st cm hsz
      have hl : l.leafIdentityHash.length = n :=
        hsz l (List.mem_cons_self l rest)
      rw [show updateSeqPhase1 n st cm (l :: rest) =
          updateSeqPhase1 n (updateSeqInsert st l)
            (cmInc cm l.merkleLeafHash) rest
        from by simp [updateSeqPhase1, hl]]
      obtain ⟨st1, cm1, heq, hunseq, hget, hwf⟩ :=
        ih (updateSeqInsert st l) (cmInc cm l.merkleLeafHash)
          (fun x hx => hsz x (List.mem_cons_of_mem _ hx))
      refine ⟨st1, cm1, heq, hunseq, ?_, fun h0 => hwf (cmWF_cmInc _ _ h0)⟩
      intro h
      rw [hget h, countMH_cons]
      by_cases hh : l.merkleLeafHash = h
      · subst hh
        rw [cmGet_cmInc_self]
        simp
        omega
      · rw [cmGet_cmInc_ne _ _ _ (fun hc => hh hc.symm)]
        simp only [if_neg hh]
        omega

/-- C3 (amended): for a batch whose leaves all carry identity hashes of the
hasher's length, UpdateSequencedLeaves returns the unknown-leaves integrity
error exactly when, for some merkle hash, the batch demands more occurrences
than the queue holds; otherwise it succeeds, and the surviving queue is a
subsequence of the old one in which, for every merkle hash, exactly one
entry per batch leaf with that hash has been removed.  (A wrong identity
hash length instead produces the hash-size validation error even when every
leaf has a matching queue entry — see the counterexample.) -/
theorem claim3_updateSequencedLeaves_queue_match (n : Nat) (st : StoreState)
    (leaves : List LogLeaf)
    (hsz : ∀ l ∈ leaves, l.leafIdentityHash.length = n) :
    match UpdateSequencedLeaves n st leaves with
    | Except.ok st1 =>
        (∀ h, countMH leaves h ≤ countMH st.unseq h) ∧
        (∀ h, countMH st1.unseq h = countMH st.unseq h - countMH leaves h) ∧
        st1.unseq.Sublist st.unseq
    | Except.error e =>
        ¬ (∀ h, countMH leaves h ≤ countMH st.unseq h) := by
  obtain ⟨st1, cm1, heq, hunseq, hget, hwfp⟩ :=
    updateSeqPhase1_ok n leaves st [] hsz
  have hwf1 : cmWF cm1 := hwfp cmWF_nil
  have hget1 : ∀ h, cmGet cm1 h = countMH leaves h := by
    intro h
    rw [hget h, cmGet_nil]
    omega
  have hred : UpdateSequencedLeaves n st leaves =
      (if (removeMatching st1.unseq cm1).2 = [] then
        Except.ok { st1 with unseq := (removeMatching st1.unseq cm1).1 }
      else Except.error StorageErr.unknownLeaves) := by
    unfold UpdateSequencedLeaves
    rw [heq]
  rw [hred]
  by_cases hemp : (removeMatching st1.unseq cm1).2 = []
  · rw [if_pos hemp]
    show (∀ h, countMH leaves h ≤ countMH st.unseq h) ∧
      (∀ h, countMH (removeMatching st1.unseq cm1).1 h =
        countMH st.unseq h - countMH leaves h) ∧
      (removeMatching st1.unseq cm1).1.Sublist st.unseq
    refine ⟨?_, ?_, ?_⟩
    · intro h
      have hg := removeMatching_get st1.unseq cm1 hwf1 h
      rw [hemp, cmGet_nil, hget1 h, hunseq] at hg
      omega
    · intro h
      have hc := removeMatching_countMH st1.unseq cm1 hwf1 h
      rw [hget1 h] at hc
      rw [hc, hunseq]
    · have hs := removeMatching_sublist st1.unseq cm1
      rw [← hunseq]
      exact hs
  · rw [if_neg hemp]
    show ¬ (∀ h, countMH leaves h ≤ countMH st.unseq h)
    intro hall
    apply hemp
    rw [cm_eq_nil_iff _ (removeMatching_wf st1.unseq cm1 hwf1)]
    intro h
    rw [removeMatching_get st1.unseq cm1 hwf1 h, hget1 h, hunseq]
    have := hall h
    omega

/-- C3 witness: sequencing `queuedB` (stamped with index 1 as `seqB`) out of
a queue holding exactly one entry with its merkle hash succeeds and empties
the queue. -/
theorem claim3_witness :
    match UpdateSequencedLeaves defaultHashSize c3store [seqB] with
    | Except.ok st1 =>
        (∀ h, countMH [seqB] h ≤ countMH c3store.unseq h) ∧
        (∀ h, countMH st1.unseq h =
          countMH c3store.unseq h - countMH [seqB] h) ∧
        st1.unseq.Sublist c3store.unseq
    | Except.error e =>
        ¬ (∀ h, countMH [seqB] h ≤ countMH c3store.unseq h) :=
  claim3_updateSequencedLeaves_queue_match defaultHashSize c3store [seqB]
    (by decide)

/-- C5 (amended): GetLeavesByRange returns, in index order, exactly the
leaves present at indices of [start, start + count); missing indices are
skipped rather than terminating the scan, so leaves beyond a gap are still
returned: every returned leaf sits at some index of the range, and every
index of the range that holds a leaf contributes it to the result. -/
theorem claim5_getLeavesByRange_skips_gaps (st : StoreState)
    (start count : Int) :
    (∀ l ∈ GetLeavesByRange st start count,
      ∃ i : Int, start ≤ i ∧ i < start + count ∧
        alookup st.seqLeaves i = some l) ∧
    (∀ i : Int, start ≤ i → i < start + count →
      ∀ l, alookup st.seqLeaves i = some l →
        l ∈ GetLeavesByRange st start count) := by
  constructor
  · intro l hl
    unfold GetLeavesByRange at hl
    rw [List.mem_filterMap] at hl
    obtain ⟨n, hn, hres⟩ := hl
    rw [List.mem_range] at hn
    exact ⟨start + n, by omega, by omega, hres⟩
  · intro i h1 h2 l hl
    unfold GetLeavesByRange
    rw [List.mem_filterMap]
    refine ⟨(i - start).toNat, ?_, ?_⟩
    · rw [List.mem_range]; omega
    · have hi : start + Int.ofNat (i - start).toNat = i := by
        rw [Int.ofNat_eq_natCast]; omega
      rw [hi]; exact hl

/-- C5 witness: in the gapped store, the leaf at index 2 is a member of
GetLeavesByRange(0, 3) although index 1 is missing. -/
theorem claim5_witness : leafC ∈ GetLeavesByRange gapStore 0 3 :=
  (claim5_getLeavesByRange_skips_gaps gapStore 0 3).2 2 (by decide)
    (by decide) leafC (by decide)

/-- C6 (amended): GetLeavesByHash returns, for each input hash in input
order, the leaves found at the sequence numbers recorded for that hash in
the hash index (stale numbers skipped); the orderBySequence argument has no
effect on the result, which is therefore not sorted by leaf index. -/
theorem claim6_getLeavesByHash_order (st : StoreState)
    (hashes : List Bytes) (b : Bool) :
    GetLeavesByHash st hashes b = GetLeavesByHash st hashes true ∧
    ∀ l, l ∈ GetLeavesByHash st hashes b ↔
      ∃ h ∈ hashes, ∃ s ∈ hashBucket st h,
        alookup st.seqLeaves s = some l := by
  constructor
  · rfl
  · intro l
    unfold GetLeavesByHash
    rw [List.mem_flatMap]
    constructor
    · intro hl
      obtain ⟨h, hh, hm⟩ := hl
      rw [List.mem_filterMap] at hm
      obtain ⟨s, hs, he⟩ := hm
      exact ⟨h, hh, s, hs, he⟩
    · rintro ⟨h, hh, s, hs, he⟩
      exact ⟨h, hh, List.mem_filterMap.mpr ⟨s, hs, he⟩⟩

/-- C6 witness: the characterisation applied to the gapped store puts
`leafC` (recorded under `mhB` at sequence number 2) in the result. -/
theorem claim6_witness : leafC ∈ GetLeavesByHash gapStore [mhB, mhA] true :=
  ((claim6_getLeavesByHash_order gapStore [mhB, mhA] true).2 leafC).mpr
    ⟨mhB, by decide, 2, by decide, by decide⟩

/-- C3 counterexample: `shortLeaf` has a matching queue entry (`queuedB`
shares its merkle hash and waits in the queue), yet UpdateSequencedLeaves
fails with the hash-size validation error instead of succeeding, because the
leaf's identity hash has length 1 rather than the hasher's 32. -/
theorem claim3_counterexample :
    c3store.unseq = [queuedB] ∧
    queuedB.merkleLeafHash = shortLeaf.merkleLeafHash ∧
    UpdateSequencedLeaves defaultHashSize c3store [shortLeaf] =
      Except.error StorageErr.badSequencedLeafHashSize := by
  decide
